import Mathlib

/-!
Shallow embedding of the core of the DICOM viewer (`src/app.py`):
volume assembly (`load_dicom_series`), the window/level transform
(`window_level_image`), default-window computation
(`compute_default_window`), plane extraction (`extract_plane`,
`clamp`, `plane_limit`) and overlay geometry (`update_overlay_coords`).
2D images are rectangular lists of lists of rationals (the Python code
works on float arrays; we embed the real-number arithmetic exactly over ℚ),
3D volumes are lists of 2D images.
-/

namespace Viewer

abbrev Img := List (List ℚ)
abbrev Vol := List (List (List ℚ))

/-- Rectangularity: `m` is an `r × c` matrix. -/
def Rect (m : Img) (r c : Nat) : Prop :=
  m.length = r ∧ ∀ row ∈ m, row.length = c

/-- Well-formed volume of shape `(Z, Y, X)`. -/
def Vol3 (v : Vol) (z y x : Nat) : Prop :=
  v.length = z ∧ ∀ s ∈ v, Rect s y x

instance (m : Img) (r c : Nat) : Decidable (Rect m r c) := by
  unfold Rect; infer_instance

instance (v : Vol) (z y x : Nat) : Decidable (Vol3 v z y x) := by
  unfold Vol3; infer_instance

/-- Number of columns of a matrix (length of its first row), as numpy shape. -/
def ncols (m : Img) : Nat := (m.headD []).length

/-- `np.clip` of a scalar to `[lo, hi]` (for `lo ≤ hi`). -/
def npClip (v lo hi : ℚ) : ℚ := min (max v lo) hi

/-- `astype(np.uint8)` on a scalar.  The viewer only ever converts values in
`[0, 255]`, where C truncation agrees with the floor used here. -/
def astypeUInt8 (q : ℚ) : ℕ := (⌊q⌋).toNat % 256

/-- `np.rot90(m, k=1)`: counter-clockwise rotation,
`rot90(m)[i][j] = m[j][N-1-i]` for an `M × N` input. -/
def rot90 (m : Img) : Img :=
  (List.range (ncols m)).map (fun i =>
    (List.range m.length).map (fun j => (m.getD j []).getD (ncols m - 1 - i) 0))

/-- `np.flipud`: reverse the row order. -/
def flipud (m : Img) : Img := m.reverse

/-- Stable insertion by key: `a` goes in front of the first element whose key
is `≥ key a`, hence before all later elements with an equal key. -/
def insertSorted (key : α → ℚ) (a : α) : List α → List α
  | [] => [a]
  | b :: bs => if key a ≤ key b then a :: b :: bs else b :: insertSorted key a bs

/-- Stable sort by a rational key (embeds Python's stable `list.sort(key=...)`). -/
def sortByKey (key : α → ℚ) : List α → List α
  | [] => []
  | a :: as => insertSorted key a (sortByKey key as)

/-- A decoded slice: pixel buffer plus the DICOM attributes the core reads. -/
structure SliceRecord where
  pixels : Img
  instanceNumber : Option Int
  imagePositionZ : Option ℚ
  rescaleSlope : Option ℚ
  rescaleIntercept : Option ℚ
deriving DecidableEq, Inhabited

/-- `sort_key` from `load_dicom_series`: `InstanceNumber` if present, else the
third `ImagePositionPatient` component, else `0`. -/
def sort_key (ds : SliceRecord) : ℚ :=
  match ds.instanceNumber with
  | some n => (n : ℚ)
  | none =>
    match ds.imagePositionZ with
    | some p => p
    | none => 0

/-- The per-record rescale step: `pixels * slope + intercept` when both
`RescaleSlope` and `RescaleIntercept` are present, identity otherwise. -/
def rescale_pixels (ds : SliceRecord) : Img :=
  match ds.rescaleSlope, ds.rescaleIntercept with
  | some s, some i => ds.pixels.map (fun row => row.map (fun v => v * s + i))
  | _, _ => ds.pixels

/-- numpy assignment `volume[idx] = src` into a `(rows, cols)` slot:
broadcasts a dimension of size 1, fails (ValueError) otherwise on mismatch. -/
def npAssign2d (rows cols : Nat) (src : Img) : Option Img :=
  let r := src.length
  let c := ncols src
  if (r = rows ∨ r = 1) ∧ (c = cols ∨ c = 1) then
    some ((List.range rows).map (fun i =>
      (List.range cols).map (fun j =>
        (src.getD (if r = 1 then 0 else i) []).getD (if c = 1 then 0 else j) 0)))
  else none

/-- Collect a list of optional results; `none` (an exception) aborts. -/
def seqOption : List (Option α) → Option (List α)
  | [] => some []
  | none :: _ => none
  | some a :: rest =>
    match seqOption rest with
    | some as => some (a :: as)
    | none => none

/-- `load_dicom_series` on already-decoded records: sort stably by `sort_key`,
take the canonical `rows`/`cols` from the first sorted record, and write each
record's rescaled pixels into its slice of the volume (numpy assignment).
`none` models the raised exceptions (no readable input / broadcast failure). -/
def load_dicom_series (datasets : List SliceRecord) : Option Vol :=
  if datasets.isEmpty then none
  else
    let sorted := sortByKey sort_key datasets
    let rows := (sorted.headD default).pixels.length
    let cols := ncols (sorted.headD default).pixels
    seqOption (sorted.map (fun ds => npAssign2d rows cols (rescale_pixels ds)))

/-- The clip-and-rescale path of `window_level_image`, per pixel. -/
def wlPixel (ww wl : ℚ) (v : ℚ) : ℕ :=
  let w := max ww 1
  let low := wl - w / 2
  let high := wl + w / 2
  astypeUInt8 ((npClip v low high - low) / (high - low) * 255)

/-- `window_level_image`: floor the width at 1.0, compute the window bounds,
return all zeros if the window is degenerate, else clip and rescale to 8 bit. -/
def window_level_image (img : Img) (ww wl : ℚ) : List (List ℕ) :=
  let w := max ww 1
  let low := wl - w / 2
  let high := wl + w / 2
  if high = low then img.map (fun row => row.map (fun _ => 0))
  else img.map (fun row => row.map (wlPixel ww wl))

/-- `clamp` from the source: `max(min(value, maximum), minimum)`. -/
def clamp (value minimum maximum : Int) : Int := max (min value maximum) minimum

/-- `np.percentile(xs, q)` with the default linear interpolation between
ranked samples. -/
def npPercentile (xs : List ℚ) (q : ℚ) : ℚ :=
  let s := sortByKey id xs
  let n := s.length
  let pos := q * ((n : ℚ) - 1) / 100
  let i := (⌊pos⌋).toNat
  let lo := s.getD i 0
  let hi := s.getD (i + 1) lo
  lo + (pos - ⌊pos⌋) * (hi - lo)

/-- `compute_default_window`: 5th/95th percentile of all intensities,
`ww = max(p95 - p5, 1)`, `wl = (p95 + p5)/2`. -/
def compute_default_window (volume : Vol) : ℚ × ℚ :=
  let low := npPercentile volume.flatten.flatten 5
  let high := npPercentile volume.flatten.flatten 95
  (max (high - low) 1, (high + low) / 2)

/-- The three anatomical planes. -/
inductive Plane
  | Axial
  | Sagittal
  | Coronal
deriving DecidableEq

/-- `extract_plane`: clamp the index to the plane's valid range, then slice;
sagittal and coronal slices are rotated 90° CCW and flipped vertically. -/
def extract_plane (volume : Vol) (plane : Plane) (index : Int) : Img :=
  let z_dim := volume.length
  let y_dim := (volume.headD []).length
  let x_dim := ncols (volume.headD [])
  match plane with
  | .Axial =>
    volume.getD (clamp index 0 ((z_dim : Int) - 1)).toNat []
  | .Sagittal =>
    let i := (clamp index 0 ((x_dim : Int) - 1)).toNat
    let plane_img := volume.map (fun sl => sl.map (fun row => row.getD i 0))
    flipud (rot90 plane_img)
  | .Coronal =>
    let i := (clamp index 0 ((y_dim : Int) - 1)).toNat
    let plane_img := volume.map (fun sl => sl.getD i [])
    flipud (rot90 plane_img)

/-- `plane_limit`: `X-1` for Sagittal, else `Y-1`. -/
def plane_limit (volume : Vol) (plane : Plane) : Int :=
  let y_dim := (volume.headD []).length
  let x_dim := ncols (volume.headD [])
  if plane = .Sagittal then (x_dim : Int) - 1 else (y_dim : Int) - 1

/-- Python's `round` (banker's rounding, half to even), applied to a rational. -/
def pyRound (q : ℚ) : Int :=
  let f := ⌊q⌋
  let r := q - (f : ℚ)
  if r < 1 / 2 then f
  else if 1 / 2 < r then f + 1
  else if f % 2 = 0 then f else f + 1

/-- `update_overlay_coords`: the line segment (plus 255 for the colour) drawn
over the axial image showing where the reformatted plane cuts it. -/
def update_overlay_coords (plane : Plane) (reform_idx reform_limit : Int)
    (shape : Nat × Nat) : Int × Int × Int × Int × Int :=
  let height := shape.1
  let width := shape.2
  if reform_limit ≤ 0 then
    if plane = .Sagittal then
      let x := (width : Int) / 2
      (x, 0, x, (height : Int) - 1, 255)
    else
      let y := (height : Int) / 2
      (0, y, (width : Int) - 1, y, 255)
  else
    let ratio : ℚ := (reform_idx : ℚ) / (reform_limit : ℚ)
    if plane = .Sagittal then
      let x := pyRound (ratio * ((width : ℚ) - 1))
      (x, 0, x, (height : Int) - 1, 255)
    else
      let y := pyRound (ratio * ((height : ℚ) - 1))
      (0, y, (width : Int) - 1, y, 255)

/-! ### Spec-side constructions and concrete inputs used in the theorems -/

/-- The `Z × Y` slice at column `x` described by the spec:
entry `[z][y] = volume[z][y][x]`. -/
def sagSliceSpec (volume : Vol) (Z Y x : Nat) : Img :=
  (List.range Z).map (fun z =>
    (List.range Y).map (fun y => ((volume.getD z []).getD y []).getD x 0))

/-- The `Z × X` slice at row `y` described by the spec:
entry `[z][x] = volume[z][y][x]`. -/
def corSliceSpec (volume : Vol) (Z X y : Nat) : Img :=
  (List.range Z).map (fun z =>
    (List.range X).map (fun x => ((volume.getD z []).getD y []).getD x 0))

/-- numpy-style shape of a 2D array: (number of rows, length of first row). -/
def shape2 (m : Img) : Nat × Nat := (m.length, ncols m)

/-- The per-plane index limit stated by the spec for a `(Z, Y, X)` volume. -/
def specLimit (Z Y X : Nat) : Plane → Int
  | .Axial => (Z : Int) - 1
  | .Sagittal => (X : Int) - 1
  | .Coronal => (Y : Int) - 1

/-- Concrete graded test volume of shape `(2, 3, 4)`, `v[z][y][x] = 100z+10y+x`. -/
def tvol : Vol :=
  [[[0,1,2,3],[10,11,12,13],[20,21,22,23]],
   [[100,101,102,103],[110,111,112,113],[120,121,122,123]]]

/-- Concrete volume of shape `(1, 2, 3)`. -/
def cvol123 : Vol := [[[1,2,3],[4,5,6]]]

/-- Concrete uniform volume, all intensities `3`. -/
def uvol : Vol := [[[3,3],[3,3]]]

/-- A `2 × 2` slice record with instance number 1 and no rescale pair. -/
def recA : SliceRecord := ⟨[[0,0],[0,0]], some 1, none, none, none⟩

/-- A `1 × 2` slice record (mismatched shape) with instance number 2. -/
def recB : SliceRecord := ⟨[[5,5]], some 2, none, none, none⟩

/-- A `2 × 2` record carrying `RescaleSlope = 2`, `RescaleIntercept = -1000`. -/
def recD : SliceRecord := ⟨[[1,2],[3,4]], some 2, none, some 2, some (-1000)⟩

/-- A `2 × 2` record with instance number 1 and no rescale pair. -/
def recE : SliceRecord := ⟨[[5,6],[7,8]], some 1, none, none, none⟩

/-! ### Helper lemmas on lists -/

theorem map_getD_range (l : List α) (f : α → β) (d : α) :
    (List.range l.length).map (fun i => f (l.getD i d)) = l.map f := by
  induction l with
  | nil => simp
  | cons a t ih =>
    simp only [List.length_cons, List.range_succ_eq_map, List.map_cons, List.getD_cons_zero,
      List.map_map]
    refine congrArg (f a :: ·) ?_
    rw [← ih]
    exact List.map_congr_left (fun i _ => by simp [Function.comp])

theorem range_map_getD (l : List α) (d : α) :
    (List.range l.length).map (fun i => l.getD i d) = l := by
  have h := map_getD_range l id d
  simpa using h

theorem getD_mem_of_lt (l : List α) (i : Nat) (d : α) (h : i < l.length) :
    l.getD i d ∈ l := by
  rw [List.getD_eq_getElem l d h]
  exact List.getElem_mem h

theorem headD_mem_of_ne_nil (l : List α) (d : α) (h : l ≠ []) : l.headD d ∈ l := by
  cases l with
  | nil => exact absurd rfl h
  | cons a t => simp

/-! ### The stable sort: permutation, sortedness, stability -/

theorem perm_insertSorted (key : α → ℚ) (a : α) (l : List α) :
    List.Perm (insertSorted key a l) (a :: l) := by
  induction l with
  | nil => rfl
  | cons b bs ih =>
    by_cases h : key a ≤ key b
    · simp [insertSorted, h]
    · simp only [insertSorted, if_neg h]
      exact (List.Perm.cons b ih).trans (List.Perm.swap a b bs)

theorem perm_sortByKey (key : α → ℚ) (l : List α) : List.Perm (sortByKey key l) l := by
  induction l with
  | nil => rfl
  | cons a as ih =>
    exact (perm_insertSorted key a (sortByKey key as)).trans (List.Perm.cons a ih)

theorem pairwise_insertSorted (key : α → ℚ) (a : α) (l : List α)
    (h : l.Pairwise (fun x y => key x ≤ key y)) :
    (insertSorted key a l).Pairwise (fun x y => key x ≤ key y) := by
  induction l with
  | nil => simp [insertSorted]
  | cons b bs ih =>
    obtain ⟨h1, h2⟩ := List.pairwise_cons.mp h
    by_cases hab : key a ≤ key b
    · simp only [insertSorted, if_pos hab, List.pairwise_cons]
      refine ⟨?_, h1, h2⟩
      intro x hx
      rcases List.mem_cons.mp hx with rfl | hx
      · exact hab
      · exact hab.trans (h1 x hx)
    · simp only [insertSorted, if_neg hab, List.pairwise_cons]
      refine ⟨?_, ih h2⟩
      intro x hx
      rcases List.mem_cons.mp ((perm_insertSorted key a bs).mem_iff.mp hx) with rfl | hx
      · exact le_of_not_le hab
      · exact h1 x hx

theorem pairwise_sortByKey (key : α → ℚ) (l : List α) :
    (sortByKey key l).Pairwise (fun x y => key x ≤ key y) := by
  induction l with
  | nil => simp [sortByKey]
  | cons a as ih => exact pairwise_insertSorted key a (sortByKey key as) ih

theorem filter_insertSorted_of_eq (key : α → ℚ) (a : α) (l : List α) (k : ℚ)
    (hk : key a = k) :
    (insertSorted key a l).filter (fun x => decide (key x = k))
      = a :: l.filter (fun x => decide (key x = k)) := by
  induction l with
  | nil => simp [insertSorted, List.filter_cons, hk]
  | cons b bs ih =>
    by_cases hab : key a ≤ key b
    · rw [insertSorted, if_pos hab, List.filter_cons, if_pos (by simpa using hk)]
    · have hbk : ¬ (key b = k) := by
        intro hbk
        exact hab (le_of_eq (by rw [hk, hbk]))
      rw [insertSorted, if_neg hab, List.filter_cons, if_neg (by simpa using hbk), ih,
        List.filter_cons, if_neg (by simpa using hbk)]

theorem filter_insertSorted_of_ne (key : α → ℚ) (a : α) (l : List α) (k : ℚ)
    (hk : ¬ (key a = k)) :
    (insertSorted key a l).filter (fun x => decide (key x = k))
      = l.filter (fun x => decide (key x = k)) := by
  induction l with
  | nil => simp [insertSorted, List.filter_cons, hk]
  | cons b bs ih =>
    by_cases hab : key a ≤ key b
    · rw [insertSorted, if_pos hab, List.filter_cons, if_neg (by simpa using hk)]
    · rw [insertSorted, if_neg hab, List.filter_cons, ih, List.filter_cons]

theorem filter_sortByKey (key : α → ℚ) (l : List α) (k : ℚ) :
    (sortByKey key l).filter (fun x => decide (key x = k))
      = l.filter (fun x => decide (key x = k)) := by
  induction l with
  | nil => simp [sortByKey]
  | cons a as ih =>
    by_cases hk : key a = k
    · rw [sortByKey, filter_insertSorted_of_eq key a _ k hk, ih, List.filter_cons,
        if_pos (by simpa using hk)]
    · rw [sortByKey, filter_insertSorted_of_ne key a _ k hk, ih, List.filter_cons,
        if_neg (by simpa using hk)]

/-! ### Window/level helper lemmas -/

theorem wl_low_lt_high (ww wl : ℚ) : wl - max ww 1 / 2 < wl + max ww 1 / 2 := by
  have h : (1 : ℚ) ≤ max ww 1 := le_max_right ww 1
  linarith

theorem window_level_image_eq_map (img : Img) (ww wl : ℚ) :
    window_level_image img ww wl = img.map (fun row => row.map (wlPixel ww wl)) := by
  unfold window_level_image
  exact if_neg (wl_low_lt_high ww wl).ne'

theorem astypeUInt8_mono {p q : ℚ} (h0 : 0 ≤ p) (hpq : p ≤ q) (h255 : q ≤ 255) :
    astypeUInt8 p ≤ astypeUInt8 q := by
  unfold astypeUInt8
  have hfm : ⌊p⌋ ≤ ⌊q⌋ := Int.floor_le_floor hpq
  have hf0 : 0 ≤ ⌊p⌋ := Int.floor_nonneg.mpr h0
  have hf255 : ⌊q⌋ ≤ 255 := by
    have h := Int.floor_le_floor h255
    simpa using h
  have h1 : (⌊p⌋).toNat ≤ (⌊q⌋).toNat := Int.toNat_le_toNat hfm
  have h2 : (⌊q⌋).toNat ≤ 255 := Int.toNat_le.mpr hf255
  rw [Nat.mod_eq_of_lt (by omega), Nat.mod_eq_of_lt (by omega)]
  exact h1

theorem wlPixel_mono (ww wl : ℚ) {a b : ℚ} (hab : a ≤ b) :
    wlPixel ww wl a ≤ wlPixel ww wl b := by
  have hw1 : (1 : ℚ) ≤ max ww 1 := le_max_right ww 1
  have hpos : (0 : ℚ) < (wl + max ww 1 / 2) - (wl - max ww 1 / 2) := by linarith
  simp only [wlPixel, npClip]
  apply astypeUInt8_mono
  · apply mul_nonneg _ (by norm_num : (0:ℚ) ≤ 255)
    apply div_nonneg _ (le_of_lt hpos)
    have h : wl - max ww 1 / 2 ≤ min (max a (wl - max ww 1 / 2)) (wl + max ww 1 / 2) :=
      le_min (le_max_right _ _) (by linarith)
    linarith
  · apply mul_le_mul_of_nonneg_right _ (by norm_num : (0:ℚ) ≤ 255)
    have h : min (max a (wl - max ww 1 / 2)) (wl + max ww 1 / 2)
        ≤ min (max b (wl - max ww 1 / 2)) (wl + max ww 1 / 2) :=
      min_le_min (max_le_max hab (le_refl _)) (le_refl _)
    exact (div_le_div_iff_of_pos_right hpos).mpr (by linarith)
  · have hy : min (max b (wl - max ww 1 / 2)) (wl + max ww 1 / 2) ≤ wl + max ww 1 / 2 :=
      min_le_right _ _
    have h1 : (min (max b (wl - max ww 1 / 2)) (wl + max ww 1 / 2) - (wl - max ww 1 / 2))
        / ((wl + max ww 1 / 2) - (wl - max ww 1 / 2)) ≤ 1 :=
      (div_le_one hpos).mpr (by linarith)
    calc (min (max b (wl - max ww 1 / 2)) (wl + max ww 1 / 2) - (wl - max ww 1 / 2))
        / ((wl + max ww 1 / 2) - (wl - max ww 1 / 2)) * 255
        ≤ 1 * 255 := mul_le_mul_of_nonneg_right h1 (by norm_num)
    _ = (255 : ℚ) := one_mul 255

theorem wlPixel_single (ww wl v : ℚ) :
    window_level_image [[v]] ww wl = [[wlPixel ww wl v]] := by
  rw [window_level_image_eq_map]
  rfl

theorem wlPixel_below (ww wl v : ℚ) (h : v ≤ wl - max ww 1 / 2) :
    wlPixel ww wl v = 0 := by
  have hw1 : (1 : ℚ) ≤ max ww 1 := le_max_right ww 1
  simp only [wlPixel, npClip]
  rw [max_eq_right h, min_eq_left (by linarith)]
  simp [astypeUInt8]

theorem wlPixel_above (ww wl v : ℚ) (h : wl + max ww 1 / 2 ≤ v) :
    wlPixel ww wl v = 255 := by
  have hw1 : (1 : ℚ) ≤ max ww 1 := le_max_right ww 1
  have hne : wl + max ww 1 / 2 - (wl - max ww 1 / 2) ≠ 0 := by
    intro h0
    have : max ww 1 = 0 := by linarith
    linarith
  simp only [wlPixel, npClip]
  rw [max_eq_left (by linarith), min_eq_right h, div_self hne]
  norm_num [astypeUInt8]
  decide

/-! ### Claim theorems: window/level transform -/

/-- **C5**: with `width = 100`, `level = 50`, `applyWindowLevel` maps the value
0 to 0 and 100 to 255, maps every value below 0 to 0 and every value above 100
to 255, and maps 50 to 127 or 128 (the code truncates 127.5 to 127). -/
theorem window_level_100_50_values :
    window_level_image [[0]] 100 50 = [[0]]
    ∧ window_level_image [[100]] 100 50 = [[255]]
    ∧ (window_level_image [[50]] 100 50 = [[127]]
        ∨ window_level_image [[50]] 100 50 = [[128]])
    ∧ (∀ v : ℚ, v < 0 → window_level_image [[v]] 100 50 = [[0]])
    ∧ (∀ v : ℚ, 100 < v → window_level_image [[v]] 100 50 = [[255]]) := by
  refine ⟨?_, ?_, Or.inl ?_, ?_, ?_⟩
  · norm_num [window_level_image, wlPixel, astypeUInt8, npClip]
  · norm_num [window_level_image, wlPixel, astypeUInt8, npClip]
    decide
  · norm_num [window_level_image, wlPixel, astypeUInt8, npClip]
    decide
  · intro v hv
    rw [wlPixel_single,
      wlPixel_below 100 50 v (by rw [show max (100:ℚ) 1 = 100 by norm_num]; linarith)]
  · intro v hv
    rw [wlPixel_single,
      wlPixel_above 100 50 v (by rw [show max (100:ℚ) 1 = 100 by norm_num]; linarith)]

/-- Witness for the hypothesis-bearing clauses of the C5 theorem, at `v = -7`
and `v = 101`. -/
theorem window_level_100_50_values_witness :
    window_level_image [[-7]] 100 50 = [[0]]
    ∧ window_level_image [[101]] 100 50 = [[255]] :=
  ⟨window_level_100_50_values.2.2.2.1 (-7) (by norm_num),
   window_level_100_50_values.2.2.2.2 101 (by norm_num)⟩

/-- **C6**: after the width floor `max(width, 1.0)`, the upper window bound is
strictly greater than the lower one, so the defensive all-zero branch of
`window_level_image` is unreachable: the function always returns through the
clip-and-rescale path (here, the pointwise map of `wlPixel`), with no failure. -/
theorem window_level_never_degenerate (ww wl : ℚ) (img : Img) :
    wl - max ww 1 / 2 < wl + max ww 1 / 2
    ∧ window_level_image img ww wl
        = img.map (fun row => row.map (wlPixel ww wl)) :=
  ⟨wl_low_lt_high ww wl, window_level_image_eq_map img ww wl⟩

/-- **C10**: for fixed width and level, the window/level transform is
pointwise monotone in the input intensity. -/
theorem window_level_pointwise_mono (ww wl a b : ℚ) (hab : a ≤ b) :
    ((window_level_image [[a]] ww wl).headD []).headD 0
      ≤ ((window_level_image [[b]] ww wl).headD []).headD 0 := by
  rw [wlPixel_single, wlPixel_single]
  simpa using wlPixel_mono ww wl hab

/-- Witness for C10 at `width = 100`, `level = 50`, `a = 10`, `b = 60`. -/
theorem window_level_pointwise_mono_witness :
    ((window_level_image [[10]] 100 50).headD []).headD 0
      ≤ ((window_level_image [[60]] 100 50).headD []).headD 0 :=
  window_level_pointwise_mono 100 50 10 60 (by norm_num)

/-! ### Claim theorems: overlay geometry -/

/-- **C9**: with a positive limit, the overlay line is the vertical segment at
`x = round(reformIndex/limit * (width-1))` for Sagittal and the horizontal
segment at `y = round(reformIndex/limit * (height-1))` for Coronal; with
`limit ≤ 0` it is a centered full-height (resp. full-width) line. -/
theorem overlay_line_spec (idx limit : Int) (h w : Nat) :
    (0 < limit →
      update_overlay_coords .Sagittal idx limit (h, w)
        = (pyRound ((idx : ℚ) / (limit : ℚ) * ((w : ℚ) - 1)), 0,
           pyRound ((idx : ℚ) / (limit : ℚ) * ((w : ℚ) - 1)), (h : Int) - 1, 255)
      ∧ update_overlay_coords .Coronal idx limit (h, w)
        = (0, pyRound ((idx : ℚ) / (limit : ℚ) * ((h : ℚ) - 1)),
           (w : Int) - 1, pyRound ((idx : ℚ) / (limit : ℚ) * ((h : ℚ) - 1)), 255))
    ∧ (limit ≤ 0 →
      update_overlay_coords .Sagittal idx limit (h, w)
        = ((w : Int) / 2, 0, (w : Int) / 2, (h : Int) - 1, 255)
      ∧ update_overlay_coords .Coronal idx limit (h, w)
        = (0, (h : Int) / 2, (w : Int) - 1, (h : Int) / 2, 255)) := by
  constructor
  · intro hpos
    constructor <;> simp [update_overlay_coords, not_le.mpr hpos]
  · intro hneg
    constructor <;> simp [update_overlay_coords, hneg]

/-- Witness for C9: a positive-limit sagittal call and a degenerate-limit
coronal call. -/
theorem overlay_line_spec_witness :
    update_overlay_coords .Sagittal 3 9 (10, 20)
      = (pyRound ((3 : ℚ) / (9 : ℚ) * ((20 : ℚ) - 1)), 0,
         pyRound ((3 : ℚ) / (9 : ℚ) * ((20 : ℚ) - 1)), (10 : Int) - 1, 255)
    ∧ update_overlay_coords .Coronal 0 (-1) (10, 20)
      = (0, (10 : Int) / 2, (20 : Int) - 1, (10 : Int) / 2, 255) :=
  ⟨((overlay_line_spec 3 9 10 20).1 (by norm_num)).1,
   ((overlay_line_spec 0 (-1) 10 20).2 (by norm_num)).2⟩

/-! ### Plane extraction helper lemmas -/

theorem clamp_clamp (i m : Int) : clamp (clamp i 0 m) 0 m = clamp i 0 m := by
  simp only [clamp]; omega

theorem clamp_nonpos (i m : Int) (h : i ≤ 0) : clamp i 0 m = 0 := by
  simp only [clamp]; omega

theorem clamp_of_le (i m : Int) (h : m ≤ i) : clamp i 0 m = clamp m 0 m := by
  simp only [clamp]; omega

theorem extract_plane_axial_index (v : Vol) (i j : Int)
    (h : clamp i 0 ((v.length : Int) - 1) = clamp j 0 ((v.length : Int) - 1)) :
    extract_plane v .Axial i = extract_plane v .Axial j := by
  simp only [extract_plane]
  rw [h]

theorem extract_plane_sagittal_index (v : Vol) (i j : Int)
    (h : clamp i 0 ((ncols (v.headD []) : Int) - 1)
        = clamp j 0 ((ncols (v.headD []) : Int) - 1)) :
    extract_plane v .Sagittal i = extract_plane v .Sagittal j := by
  simp only [extract_plane]
  rw [h]

theorem extract_plane_coronal_index (v : Vol) (i j : Int)
    (h : clamp i 0 (((v.headD []).length : Int) - 1)
        = clamp j 0 (((v.headD []).length : Int) - 1)) :
    extract_plane v .Coronal i = extract_plane v .Coronal j := by
  simp only [extract_plane]
  rw [h]

/-- The three internal dimension reads of `extract_plane` agree with the
shape of a well-formed non-empty volume. -/
theorem vol3_dims (v : Vol) (Z Y X : Nat) (hv : Vol3 v Z Y X)
    (hZ : 0 < Z) (hY : 0 < Y) :
    v.length = Z ∧ (v.headD []).length = Y ∧ ncols (v.headD []) = X := by
  obtain ⟨hlen, hrect⟩ := hv
  have hvne : v ≠ [] := List.ne_nil_of_length_pos (by omega)
  have h0 : v.headD [] ∈ v := headD_mem_of_ne_nil v [] hvne
  have hyd : (v.headD []).length = Y := (hrect _ h0).1
  have hsne : v.headD [] ≠ [] := List.ne_nil_of_length_pos (by omega)
  have hrow : (v.headD []).headD [] ∈ v.headD [] := headD_mem_of_ne_nil _ [] hsne
  exact ⟨hlen, hyd, (hrect _ h0).2 _ hrow⟩

theorem sag_slice_eq (v : Vol) (Z Y X : Nat) (hv : Vol3 v Z Y X) (x : Nat) :
    v.map (fun sl => sl.map (fun row => row.getD x 0)) = sagSliceSpec v Z Y x := by
  obtain ⟨hlen, hrect⟩ := hv
  subst hlen
  unfold sagSliceSpec
  rw [← map_getD_range v (fun sl => sl.map (fun row => row.getD x 0)) []]
  apply List.map_congr_left
  intro z hz
  have hmem : v.getD z [] ∈ v := getD_mem_of_lt v z [] (List.mem_range.mp hz)
  have hY : (v.getD z []).length = Y := (hrect _ hmem).1
  rw [← hY]
  exact (map_getD_range (v.getD z []) (fun row => row.getD x 0) []).symm

theorem cor_slice_eq (v : Vol) (Z Y X : Nat) (hv : Vol3 v Z Y X)
    (y : Nat) (hy : y < Y) :
    v.map (fun sl => sl.getD y []) = corSliceSpec v Z X y := by
  obtain ⟨hlen, hrect⟩ := hv
  subst hlen
  unfold corSliceSpec
  rw [← map_getD_range v (fun sl => sl.getD y []) []]
  apply List.map_congr_left
  intro z hz
  have hmem : v.getD z [] ∈ v := getD_mem_of_lt v z [] (List.mem_range.mp hz)
  have hY : (v.getD z []).length = Y := (hrect _ hmem).1
  have hrow : (v.getD z []).getD y [] ∈ v.getD z [] :=
    getD_mem_of_lt _ y [] (by omega)
  have hX : ((v.getD z []).getD y []).length = X := (hrect _ hmem).2 _ hrow
  rw [← hX]
  exact (range_map_getD ((v.getD z []).getD y []) 0).symm

theorem extract_plane_sagittal_eq_spec (v : Vol) (Z Y X x : Nat)
    (hv : Vol3 v Z Y X) (hZ : 0 < Z) (hY : 0 < Y) (hx : x < X) :
    extract_plane v .Sagittal (x : Int) = flipud (rot90 (sagSliceSpec v Z Y x)) := by
  obtain ⟨hzd, hyd, hxd⟩ := vol3_dims v Z Y X hv hZ hY
  simp only [extract_plane, hxd]
  rw [show (clamp (x : Int) 0 ((X : Int) - 1)).toNat = x by simp only [clamp]; omega]
  rw [sag_slice_eq v Z Y X hv x]

theorem extract_plane_coronal_eq_spec (v : Vol) (Z Y X y : Nat)
    (hv : Vol3 v Z Y X) (hZ : 0 < Z) (hY : 0 < Y) (hy : y < Y) :
    extract_plane v .Coronal (y : Int) = flipud (rot90 (corSliceSpec v Z X y)) := by
  obtain ⟨hzd, hyd, hxd⟩ := vol3_dims v Z Y X hv hZ hY
  simp only [extract_plane, hyd]
  rw [show (clamp (y : Int) 0 ((Y : Int) - 1)).toNat = y by simp only [clamp]; omega]
  rw [cor_slice_eq v Z Y X hv y hy]

theorem length_flipud_rot90 (m : Img) : (flipud (rot90 m)).length = ncols m := by
  simp [flipud, rot90]

theorem row_length_rot90 (m : Img) (row : List ℚ) (h : row ∈ rot90 m) :
    row.length = m.length := by
  simp only [rot90, List.mem_map] at h
  obtain ⟨i, _, rfl⟩ := h
  simp

theorem ncols_flipud_rot90 (m : Img) (h : 0 < ncols m) :
    ncols (flipud (rot90 m)) = m.length := by
  have hne : rot90 m ≠ [] := by
    have hl : (rot90 m).length = ncols m := by simp [rot90]
    exact List.ne_nil_of_length_pos (by omega)
  have hne' : (rot90 m).reverse ≠ [] := by simpa using hne
  have hmem : ((rot90 m).reverse.headD []) ∈ (rot90 m).reverse :=
    headD_mem_of_ne_nil _ [] hne'
  rw [List.mem_reverse] at hmem
  exact row_length_rot90 m _ hmem

theorem sagSliceSpec_shape (v : Vol) (Z Y x : Nat) (hZ : 0 < Z) :
    (sagSliceSpec v Z Y x).length = Z ∧ ncols (sagSliceSpec v Z Y x) = Y := by
  obtain ⟨k, rfl⟩ := Nat.exists_eq_succ_of_ne_zero (Nat.pos_iff_ne_zero.mp hZ)
  constructor
  · simp [sagSliceSpec]
  · simp [sagSliceSpec, ncols, List.range_succ_eq_map]

theorem corSliceSpec_shape (v : Vol) (Z X y : Nat) (hZ : 0 < Z) :
    (corSliceSpec v Z X y).length = Z ∧ ncols (corSliceSpec v Z X y) = X := by
  obtain ⟨k, rfl⟩ := Nat.exists_eq_succ_of_ne_zero (Nat.pos_iff_ne_zero.mp hZ)
  constructor
  · simp [corSliceSpec]
  · simp [corSliceSpec, ncols, List.range_succ_eq_map]

/-! ### Claim theorems: plane extraction -/

/-- **C1**: for an in-range index, the sagittal extraction equals the spec's
`Z × Y` column slice rotated 90° counter-clockwise and then flipped
vertically, and the coronal extraction equals the spec's `Z × X` row slice
under the same rotate-then-flip sequence. -/
theorem extract_plane_orientation (v : Vol) (Z Y X x y : Nat)
    (hv : Vol3 v Z Y X) (hZ : 0 < Z) (hY : 0 < Y) (hx : x < X) (hy : y < Y) :
    extract_plane v .Sagittal (x : Int) = flipud (rot90 (sagSliceSpec v Z Y x))
    ∧ extract_plane v .Coronal (y : Int) = flipud (rot90 (corSliceSpec v Z X y)) :=
  ⟨extract_plane_sagittal_eq_spec v Z Y X x hv hZ hY hx,
   extract_plane_coronal_eq_spec v Z Y X y hv hZ hY hy⟩

/-- Witness for C1 on the concrete `(2, 3, 4)` graded volume at `x = y = 1`. -/
theorem extract_plane_orientation_witness :
    extract_plane tvol .Sagittal (1 : Int) = flipud (rot90 (sagSliceSpec tvol 2 3 1))
    ∧ extract_plane tvol .Coronal (1 : Int) = flipud (rot90 (corSliceSpec tvol 2 4 1)) :=
  extract_plane_orientation tvol 2 3 4 1 1 (by decide) (by decide) (by decide)
    (by decide) (by decide)

/-- **C7**: `extract_plane` never fails and is insensitive to out-of-range
indices: every call equals the call with the index clamped into
`[0, limit]` (`Z-1` axial, `X-1` sagittal, `Y-1` coronal); index `-5` gives
the index-0 result and any index at or above the limit gives the limit's
result. -/
theorem extract_plane_clamps (v : Vol) (Z Y X : Nat)
    (hv : Vol3 v Z Y X) (hZ : 0 < Z) (hY : 0 < Y) :
    (∀ i : Int,
      extract_plane v .Axial i = extract_plane v .Axial (clamp i 0 (specLimit Z Y X .Axial))
      ∧ extract_plane v .Sagittal i
          = extract_plane v .Sagittal (clamp i 0 (specLimit Z Y X .Sagittal))
      ∧ extract_plane v .Coronal i
          = extract_plane v .Coronal (clamp i 0 (specLimit Z Y X .Coronal)))
    ∧ (∀ p : Plane, extract_plane v p (-5) = extract_plane v p 0)
    ∧ (∀ (p : Plane) (i : Int), specLimit Z Y X p ≤ i →
        extract_plane v p i = extract_plane v p (specLimit Z Y X p)) := by
  obtain ⟨hzd, hyd, hxd⟩ := vol3_dims v Z Y X hv hZ hY
  refine ⟨?_, ?_, ?_⟩
  · intro i
    refine ⟨?_, ?_, ?_⟩
    · exact extract_plane_axial_index v i _ (by rw [hzd, specLimit, clamp_clamp])
    · exact extract_plane_sagittal_index v i _ (by rw [hxd, specLimit, clamp_clamp])
    · exact extract_plane_coronal_index v i _ (by rw [hyd, specLimit, clamp_clamp])
  · intro p
    cases p
    · exact extract_plane_axial_index v _ _
        (by rw [clamp_nonpos _ _ (by norm_num), clamp_nonpos _ _ (by norm_num)])
    · exact extract_plane_sagittal_index v _ _
        (by rw [clamp_nonpos _ _ (by norm_num), clamp_nonpos _ _ (by norm_num)])
    · exact extract_plane_coronal_index v _ _
        (by rw [clamp_nonpos _ _ (by norm_num), clamp_nonpos _ _ (by norm_num)])
  · intro p i hi
    cases p
    · exact extract_plane_axial_index v i _
        (by rw [hzd]; exact clamp_of_le i _ (by simpa [specLimit] using hi))
    · exact extract_plane_sagittal_index v i _
        (by rw [hxd]; exact clamp_of_le i _ (by simpa [specLimit] using hi))
    · exact extract_plane_coronal_index v i _
        (by rw [hyd]; exact clamp_of_le i _ (by simpa [specLimit] using hi))

/-- Witness for C7 on the concrete volume: index `-5` matches index `0` and
index `99` matches the sagittal limit `3`. -/
theorem extract_plane_clamps_witness :
    extract_plane tvol .Sagittal (-5) = extract_plane tvol .Sagittal 0
    ∧ extract_plane tvol .Sagittal 99 = extract_plane tvol .Sagittal (specLimit 2 3 4 .Sagittal) :=
  ⟨(extract_plane_clamps tvol 2 3 4 (by decide) (by decide) (by decide)).2.1 .Sagittal,
   (extract_plane_clamps tvol 2 3 4 (by decide) (by decide) (by decide)).2.2 .Sagittal 99
     (by decide)⟩

/-- **C3 counterexample**: on the concrete volume of shape `(Z, Y, X) =
(1, 2, 3)`, the sagittal extraction has numpy shape `(2, 1)`, not the
`(Z, Y) = (1, 2)` stated by the claim. -/
theorem extract_plane_shape_counterexample :
    shape2 (extract_plane cvol123 .Sagittal 0) ≠ (1, 2) := by decide

/-- **C3 (amended)**: the sagittal extraction has shape `(Y, Z)` and the
coronal extraction has shape `(X, Z)` (the rotate-then-flip sequence
transposes the `Z × Y` and `Z × X` slices). -/
theorem extract_plane_shapes (v : Vol) (Z Y X x y : Nat)
    (hv : Vol3 v Z Y X) (hZ : 0 < Z) (hY : 0 < Y) (hx : x < X) (hy : y < Y) :
    shape2 (extract_plane v .Sagittal (x : Int)) = (Y, Z)
    ∧ shape2 (extract_plane v .Coronal (y : Int)) = (X, Z) := by
  constructor
  · rw [extract_plane_sagittal_eq_spec v Z Y X x hv hZ hY hx]
    obtain ⟨hl, hc⟩ := sagSliceSpec_shape v Z Y x hZ
    unfold shape2
    rw [length_flipud_rot90, hc, ncols_flipud_rot90 _ (by omega), hl]
  · rw [extract_plane_coronal_eq_spec v Z Y X y hv hZ hY hy]
    obtain ⟨hl, hc⟩ := corSliceSpec_shape v Z X y hZ
    unfold shape2
    rw [length_flipud_rot90, hc, ncols_flipud_rot90 _ (by omega), hl]

/-- Witness for the amended C3 on the `(2, 3, 4)` volume: sagittal shape
`(3, 2)`, coronal shape `(4, 2)`. -/
theorem extract_plane_shapes_witness :
    shape2 (extract_plane tvol .Sagittal (1 : Int)) = (3, 2)
    ∧ shape2 (extract_plane tvol .Coronal (1 : Int)) = (4, 2) :=
  extract_plane_shapes tvol 2 3 4 1 1 (by decide) (by decide) (by decide)
    (by decide) (by decide)

/-! ### Volume assembly helper lemmas -/

theorem rect_map_rows (m : Img) (g : ℚ → ℚ) (r c : Nat) (h : Rect m r c) :
    Rect (m.map (fun row => row.map g)) r c := by
  constructor
  · simpa using h.1
  · intro row hrow
    obtain ⟨row0, h0, rfl⟩ := List.mem_map.mp hrow
    simpa using h.2 row0 h0

theorem rect_rescale_pixels (ds : SliceRecord) (r c : Nat)
    (h : Rect ds.pixels r c) : Rect (rescale_pixels ds) r c := by
  unfold rescale_pixels
  cases hs : ds.rescaleSlope with
  | none => cases ds.rescaleIntercept <;> exact h
  | some s =>
    cases ds.rescaleIntercept with
    | none => exact h
    | some i => exact rect_map_rows ds.pixels _ r c h

theorem npAssign2d_of_rect (src : Img) (rows cols : Nat)
    (hr : 0 < rows) (_hc : 0 < cols) (h : Rect src rows cols) :
    npAssign2d rows cols src = some src := by
  have hlen : src.length = rows := h.1
  have hsne : src ≠ [] := List.ne_nil_of_length_pos (by omega)
  have hhead : ncols src = cols := h.2 _ (headD_mem_of_ne_nil src [] hsne)
  simp only [npAssign2d]
  rw [if_pos ⟨Or.inl hlen, Or.inl hhead⟩]
  refine congrArg some ?_
  have hfix : (List.range rows).map (fun i =>
      (List.range cols).map (fun j =>
        (src.getD (if src.length = 1 then 0 else i) []).getD
          (if ncols src = 1 then 0 else j) 0))
      = (List.range rows).map (fun i =>
        (List.range cols).map (fun j => (src.getD i []).getD j 0)) := by
    apply List.map_congr_left
    intro i hi
    have hii : (if src.length = 1 then 0 else i) = i := by
      split
      · next h1 => have := List.mem_range.mp hi; omega
      · rfl
    rw [hii]
    apply List.map_congr_left
    intro j hj
    have hjj : (if ncols src = 1 then 0 else j) = j := by
      split
      · next h1 => have := List.mem_range.mp hj; omega
      · rfl
    rw [hjj]
  rw [hfix, ← hlen]
  rw [map_getD_range src (fun sl => (List.range cols).map (fun j => sl.getD j 0)) []]
  have hid : src.map (fun sl => (List.range cols).map (fun j => sl.getD j 0)) = src.map id := by
    apply List.map_congr_left
    intro sl hsl
    rw [← h.2 sl hsl]
    exact range_map_getD sl 0
  rw [hid, List.map_id]

theorem seqOption_map_some (l : List α) (g : α → Option β) (f : α → β)
    (h : ∀ x ∈ l, g x = some (f x)) :
    seqOption (l.map g) = some (l.map f) := by
  induction l with
  | nil => rfl
  | cons a t ih =>
    rw [List.map_cons, h a (List.mem_cons_self a t)]
    simp only [seqOption]
    rw [ih (fun x hx => h x (List.mem_cons_of_mem a hx))]
    rfl

theorem load_dicom_series_ok (records : List SliceRecord) (rows cols : Nat)
    (h0 : records ≠ []) (hr : 0 < rows) (hc : 0 < cols)
    (hdim : ∀ r ∈ records, Rect r.pixels rows cols) :
    load_dicom_series records
      = some ((sortByKey sort_key records).map rescale_pixels) := by
  simp only [load_dicom_series]
  rw [if_neg (by simpa using h0)]
  have hperm := perm_sortByKey sort_key records
  have hsne : sortByKey sort_key records ≠ [] := by
    intro hnil
    have hlen := hperm.length_eq
    rw [hnil] at hlen
    exact h0 (List.length_eq_zero.mp hlen.symm)
  have hmem : ∀ r ∈ sortByKey sort_key records, Rect r.pixels rows cols :=
    fun r hr' => hdim r (hperm.mem_iff.mp hr')
  have hhead := hmem _ (headD_mem_of_ne_nil _ default hsne)
  have hrows : ((sortByKey sort_key records).headD default).pixels.length = rows := hhead.1
  have hpne : ((sortByKey sort_key records).headD default).pixels ≠ [] :=
    List.ne_nil_of_length_pos (by omega)
  have hcols : ncols ((sortByKey sort_key records).headD default).pixels = cols :=
    hhead.2 _ (headD_mem_of_ne_nil _ [] hpne)
  rw [hrows, hcols]
  apply seqOption_map_some
  intro ds hds
  exact npAssign2d_of_rect _ rows cols hr hc (rect_rescale_pixels ds rows cols (hmem ds hds))

theorem getD_map_of_lt (l : List α) (f : α → β) (i : Nat) (d : β) (d' : α)
    (h : i < l.length) : (l.map f).getD i d = f (l.getD i d') := by
  rw [List.getD_eq_getElem _ _ (by simpa using h), List.getD_eq_getElem _ _ h,
    List.getElem_map]

/-! ### Claim theorems: volume assembly -/

/-- **C4**: on a non-empty collection of records with identical positive
dimensions, assembly succeeds and yields the stably sorted records' rescaled
pixels: `Z` equals the record count, the slices are in ascending `sort_key`
order with ties kept in input order (stable sort, stated as preservation of
every equal-key fibre), slice `i` is the `i`-th sorted record's pixels
transformed by `pixels * slope + intercept` (with slope 2 and intercept
`-1000` this is `2v - 1000`), and the identity transform applies when the
rescale pair is not both present. -/
theorem assembleVolume_spec (records : List SliceRecord) (rows cols : Nat)
    (h0 : records ≠ []) (hr : 0 < rows) (hc : 0 < cols)
    (hdim : ∀ r ∈ records, Rect r.pixels rows cols) :
    load_dicom_series records
      = some ((sortByKey sort_key records).map rescale_pixels)
    ∧ ((sortByKey sort_key records).map rescale_pixels).length = records.length
    ∧ (sortByKey sort_key records).Pairwise (fun a b => sort_key a ≤ sort_key b)
    ∧ (∀ k : ℚ, (sortByKey sort_key records).filter (fun r => decide (sort_key r = k))
        = records.filter (fun r => decide (sort_key r = k)))
    ∧ (∀ i, i < records.length →
        ((sortByKey sort_key records).map rescale_pixels).getD i []
          = rescale_pixels ((sortByKey sort_key records).getD i default))
    ∧ (∀ ds : SliceRecord, ds.rescaleSlope = some 2 → ds.rescaleIntercept = some (-1000) →
        rescale_pixels ds = ds.pixels.map (fun row => row.map (fun v => 2 * v - 1000)))
    ∧ (∀ ds : SliceRecord, ds.rescaleSlope = none ∨ ds.rescaleIntercept = none →
        rescale_pixels ds = ds.pixels) := by
  have hperm := perm_sortByKey sort_key records
  refine ⟨load_dicom_series_ok records rows cols h0 hr hc hdim, ?_, ?_, ?_, ?_, ?_, ?_⟩
  · rw [List.length_map]
    exact hperm.length_eq
  · exact pairwise_sortByKey sort_key records
  · exact filter_sortByKey sort_key records
  · intro i hi
    exact getD_map_of_lt _ rescale_pixels i [] default (by rw [hperm.length_eq]; exact hi)
  · intro ds hs hi
    simp only [rescale_pixels, hs, hi]
    refine congrArg ds.pixels.map ?_
    funext row
    refine congrArg row.map ?_
    funext v
    ring
  · intro ds h
    rcases h with h | h
    · simp [rescale_pixels, h]
    · cases hs : ds.rescaleSlope <;> simp [rescale_pixels, h, hs]

/-- Witness for C4 on two concrete `2 × 2` records (one carrying the rescale
pair slope 2 / intercept `-1000`). -/
theorem assembleVolume_spec_witness :
    load_dicom_series [recD, recE]
      = some ((sortByKey sort_key [recD, recE]).map rescale_pixels)
    ∧ rescale_pixels recD
        = recD.pixels.map (fun row => row.map (fun v => 2 * v - 1000)) :=
  ⟨(assembleVolume_spec [recD, recE] 2 2 (by decide) (by decide) (by decide)
      (by decide)).1,
   (assembleVolume_spec [recD, recE] 2 2 (by decide) (by decide) (by decide)
      (by decide)).2.2.2.2.2.1 recD (by decide) (by decide)⟩

/-- **C2 (code behavior at the failing input)**: `load_dicom_series` performs
no dimension check; a `1 × 2` record following a `2 × 2` canonical record is
silently broadcast across the slice and a volume is returned, instead of a
distinct DimensionMismatch assembly failure. -/
theorem load_dicom_series_broadcasts_mismatch :
    load_dicom_series [recA, recB]
      = some [[[0, 0], [0, 0]], [[5, 5], [5, 5]]] := by decide

/-! ### Percentile helper lemma and default-window claim -/

theorem npPercentile_const (xs : List ℚ) (c q : ℚ) (hne : xs ≠ [])
    (_hq0 : 0 ≤ q) (hq100 : q ≤ 100) (hall : ∀ v ∈ xs, v = c) :
    npPercentile xs q = c := by
  have hperm := perm_sortByKey id xs
  have hsall : ∀ v ∈ sortByKey id xs, v = c := fun v hv => hall v (hperm.mem_iff.mp hv)
  have hn : 0 < (sortByKey id xs).length := by
    rw [hperm.length_eq]
    exact List.length_pos.mpr hne
  simp only [npPercentile]
  set s := sortByKey id xs with hs
  set pos := q * ((s.length : ℚ) - 1) / 100 with hpos
  have h1 : (0 : ℚ) ≤ (s.length : ℚ) - 1 := by
    have h2 : (1 : ℚ) ≤ (s.length : ℚ) := by exact_mod_cast hn
    linarith
  have hposle : pos ≤ (s.length : ℚ) - 1 := by
    rw [hpos]
    linarith [mul_le_mul_of_nonneg_right hq100 h1]
  have hfloor : ⌊pos⌋ ≤ (s.length : Int) - 1 := by
    have h2 : (⌊pos⌋ : ℚ) ≤ (s.length : ℚ) - 1 := le_trans (Int.floor_le pos) hposle
    exact_mod_cast h2
  have hi : (⌊pos⌋).toNat < s.length := by omega
  have hlo : s.getD (⌊pos⌋).toNat 0 = c := hsall _ (getD_mem_of_lt _ _ _ hi)
  by_cases hi1 : (⌊pos⌋).toNat + 1 < s.length
  · have hhi : s.getD ((⌊pos⌋).toNat + 1) (s.getD (⌊pos⌋).toNat 0) = c :=
      hsall _ (getD_mem_of_lt _ _ _ hi1)
    rw [hhi, hlo]
    ring
  · have hge : s.length ≤ (⌊pos⌋).toNat + 1 := by omega
    have hhi : s.getD ((⌊pos⌋).toNat + 1) (s.getD (⌊pos⌋).toNat 0)
        = s.getD (⌊pos⌋).toNat 0 := List.getD_eq_default _ _ hge
    rw [hhi, hlo]
    ring

/-- **C8**: `compute_default_window` returns
`(max(p95 - p5, 1), (p95 + p5)/2)` over all intensities with linearly
interpolated percentiles, and on a volume whose intensities all equal `c` it
returns width `1.0` and level `c`. -/
theorem compute_default_window_spec :
    (∀ v : Vol, compute_default_window v
      = (max (npPercentile v.flatten.flatten 95 - npPercentile v.flatten.flatten 5) 1,
         (npPercentile v.flatten.flatten 95 + npPercentile v.flatten.flatten 5) / 2))
    ∧ (∀ (v : Vol) (c : ℚ), v.flatten.flatten ≠ [] →
        (∀ q ∈ v.flatten.flatten, q = c) → compute_default_window v = (1, c)) := by
  constructor
  · intro v
    rfl
  · intro v c hne hall
    simp only [compute_default_window]
    rw [npPercentile_const _ c 5 hne (by norm_num) (by norm_num) hall,
        npPercentile_const _ c 95 hne (by norm_num) (by norm_num) hall]
    rw [Prod.mk.injEq]
    constructor
    · rw [sub_self]
      exact max_eq_right zero_le_one
    · ring

/-- Witness for C8 on the concrete uniform volume of intensity 3. -/
theorem compute_default_window_spec_witness :
    compute_default_window uvol = (1, 3) :=
  compute_default_window_spec.2 uvol 3 (by decide) (by decide)

end Viewer
